import Mathlib

/-!
Verification of the YouTube-transcript assistant against its specification.

The development shallowly embeds the three Python source files:
`yt_transcript.py` (video-id extraction, segment merging, transcript
acquisition and persistence), `yt_chat.py` (vector-store creation policy,
session-history store), and the wiring in `app.py`.  Floating-point times
are modelled as rationals; Python exceptions of external collaborators are
modelled as `Option`/sum results; filesystem and clock effects are passed
explicitly.
-/

namespace YT

/-- One timed text record with the `end` field present, as handed to
`merge_transcript_segments` (the source uses the same dict shape
`{start, end, text}` for raw entries and for merged segments).  The Python
key `end` is a Lean keyword, so it is named `stop` here. -/
structure Seg where
  start : ℚ
  stop : ℚ
  text : String
deriving DecidableEq, Repr

/-- Python `str.strip()`: drop whitespace from both ends. -/
def pyStrip (s : String) : String :=
  ⟨((s.data.dropWhile Char.isWhitespace).reverse.dropWhile Char.isWhitespace).reverse⟩

/-- The set `sentence_end_punct = {'.', '?', '!', '"', "'", ')'}` from
`merge_transcript_segments` (`Char.ofNat 34` is `"`, `Char.ofNat 39` is `'`). -/
def sentence_end_punct : List Char := ['.', '?', '!', Char.ofNat 34, Char.ofNat 39, ')']

/-- `len(prev_text) > 0 and prev_text[-1] in sentence_end_punct`. -/
def ends_with_sentence_end (s : String) : Bool :=
  match s.data.getLast? with
  | none => false
  | some c => sentence_end_punct.contains c

/-- The `for entry in transcript_list[1:]` loop of `merge_transcript_segments`:
given the current segment, fold the remaining entries, emitting closed
segments in order (the trailing `merged.append(current_segment)` is the
base case). -/
def mergeLoop (max_gap_seconds : ℚ) (current_segment : Seg) :
    List Seg → List Seg
  | [] => [current_segment]
  | entry :: rest =>
    let current_text := pyStrip entry.text
    let ends : Bool := ends_with_sentence_end current_segment.text
    let starts_new : Bool := decide (entry.start > current_segment.stop + max_gap_seconds)
    if ends || starts_new then
      current_segment :: mergeLoop max_gap_seconds ⟨entry.start, entry.stop, current_text⟩ rest
    else
      mergeLoop max_gap_seconds
        ⟨current_segment.start, entry.stop, current_segment.text ++ " " ++ current_text⟩ rest

/-- `merge_transcript_segments(transcript_list, max_gap_seconds=1.5)` from
`yt_transcript.py`. -/
def merge_transcript_segments (transcript_list : List Seg)
    (max_gap_seconds : ℚ := 1.5) : List Seg :=
  match transcript_list with
  | [] => []
  | first :: rest =>
    mergeLoop max_gap_seconds ⟨first.start, first.stop, pyStrip first.text⟩ rest

/-- Branch equation: either split condition closes the current segment. -/
lemma mergeLoop_cons_split (g : ℚ) (cur e : Seg) (rest : List Seg)
    (h : ends_with_sentence_end cur.text = true ∨ cur.stop + g < e.start) :
    mergeLoop g cur (e :: rest) =
      cur :: mergeLoop g ⟨e.start, e.stop, pyStrip e.text⟩ rest := by
  have hc : (ends_with_sentence_end cur.text || decide (e.start > cur.stop + g)) = true := by
    rcases h with h | h
    · simp [h]
    · simp [h]
  simp only [mergeLoop, hc, if_true]

/-- Branch equation: otherwise the fragment is appended to the current segment. -/
lemma mergeLoop_cons_extend (g : ℚ) (cur e : Seg) (rest : List Seg)
    (h1 : ends_with_sentence_end cur.text = false) (h2 : ¬ cur.stop + g < e.start) :
    mergeLoop g cur (e :: rest) =
      mergeLoop g ⟨cur.start, e.stop, cur.text ++ " " ++ pyStrip e.text⟩ rest := by
  have hc : (ends_with_sentence_end cur.text || decide (e.start > cur.stop + g)) = false := by
    simp [h1, h2]
  simp [mergeLoop, hc]

/-- Join a list of strings with single spaces (`"a" ++ " " ++ "b" ++ ...`). -/
def joinSp : List String → String
  | [] => ""
  | [t] => t
  | t :: t2 :: ts => t ++ " " ++ joinSp (t2 :: ts)

/-- The merged segment determined by a nonempty run of constituent entries
(head plus the rest of the run): start of the first, `end` of the last,
texts stripped and joined by single spaces — the state
`merge_transcript_segments` maintains for its `current_segment`. -/
def segOfGroup : Seg × List Seg → Seg
  | (f, gs) =>
    ⟨f.start, (gs.getLastD f).stop, joinSp ((f :: gs).map (fun e => pyStrip e.text))⟩

/-- The grouping view of the merge loop: instead of the running segment it
carries the run of constituent entries (head `f`, tail `gs`) and makes the
same split decision through `segOfGroup`. -/
def groupLoop (g : ℚ) (f : Seg) (gs : List Seg) : List Seg → List (Seg × List Seg)
  | [] => [(f, gs)]
  | e :: rest =>
    if ends_with_sentence_end (segOfGroup (f, gs)).text
        || decide (e.start > (segOfGroup (f, gs)).stop + g) then
      (f, gs) :: groupLoop g e [] rest
    else
      groupLoop g f (gs ++ [e]) rest

/-- Constituent decomposition of `merge_transcript_segments`: the list of
runs of input entries each output segment is merged from. -/
def merge_groups (transcript_list : List Seg) (g : ℚ := 1.5) : List (Seg × List Seg) :=
  match transcript_list with
  | [] => []
  | first :: rest => groupLoop g first [] rest

lemma segOfGroup_nil (f : Seg) : segOfGroup (f, []) = ⟨f.start, f.stop, pyStrip f.text⟩ := rfl

lemma joinSp_concat (xs : List String) (y : String) (h : xs ≠ []) :
    joinSp (xs ++ [y]) = joinSp xs ++ " " ++ y := by
  induction xs with
  | nil => exact absurd rfl h
  | cons x xs ih =>
    cases xs with
    | nil => rfl
    | cons x2 xs2 =>
      have h2 := ih (by simp)
      rw [List.cons_append] at h2
      show x ++ " " ++ joinSp (x2 :: (xs2 ++ [y])) = x ++ " " ++ joinSp (x2 :: xs2) ++ " " ++ y
      rw [h2]
      simp [String.append_assoc]

lemma segOfGroup_concat (f : Seg) (gs : List Seg) (e : Seg) :
    segOfGroup (f, gs ++ [e]) =
      ⟨(segOfGroup (f, gs)).start, e.stop,
        (segOfGroup (f, gs)).text ++ " " ++ pyStrip e.text⟩ := by
  simp only [segOfGroup]
  refine congrArg₂ (fun a b => Seg.mk f.start a b) ?_ ?_
  · simp [List.getLastD_concat]
  · rw [show f :: (gs ++ [e]) = (f :: gs) ++ [e] by simp, List.map_append]
    exact joinSp_concat _ _ (by simp)

/-- The merge loop is the grouping loop followed by collapsing each run. -/
lemma mergeLoop_eq_groupLoop (g : ℚ) :
    ∀ (fs : List Seg) (f : Seg) (gs : List Seg),
      mergeLoop g (segOfGroup (f, gs)) fs = (groupLoop g f gs fs).map segOfGroup := by
  intro fs
  induction fs with
  | nil => intro f gs; rfl
  | cons e rest ih =>
    intro f gs
    by_cases hc : (ends_with_sentence_end (segOfGroup (f, gs)).text
        || decide (e.start > (segOfGroup (f, gs)).stop + g)) = true
    · rw [show mergeLoop g (segOfGroup (f, gs)) (e :: rest) =
          segOfGroup (f, gs) ::
            mergeLoop g ⟨e.start, e.stop, pyStrip e.text⟩ rest by
            simp [mergeLoop, hc]]
      rw [show groupLoop g f gs (e :: rest) = (f, gs) :: groupLoop g e [] rest by
            simp [groupLoop, hc]]
      rw [← segOfGroup_nil, ih e []]
      rfl
    · rw [show mergeLoop g (segOfGroup (f, gs)) (e :: rest) =
          mergeLoop g ⟨(segOfGroup (f, gs)).start, e.stop,
              (segOfGroup (f, gs)).text ++ " " ++ pyStrip e.text⟩ rest by
            simp [mergeLoop, hc]]
      rw [show groupLoop g f gs (e :: rest) = groupLoop g f (gs ++ [e]) rest by
            simp [groupLoop, hc]]
      rw [← segOfGroup_concat, ih f (gs ++ [e])]

lemma merge_eq_groups (ts : List Seg) (g : ℚ) :
    merge_transcript_segments ts g = (merge_groups ts g).map segOfGroup := by
  cases ts with
  | nil => rfl
  | cons f rest =>
    show mergeLoop g ⟨f.start, f.stop, pyStrip f.text⟩ rest = _
    rw [← segOfGroup_nil, mergeLoop_eq_groupLoop]
    rfl

lemma groupLoop_join (g : ℚ) :
    ∀ (fs : List Seg) (f : Seg) (gs : List Seg),
      ((groupLoop g f gs fs).map (fun p => p.1 :: p.2)).flatten = (f :: gs) ++ fs := by
  intro fs
  induction fs with
  | nil => intro f gs; simp [groupLoop]
  | cons e rest ih =>
    intro f gs
    by_cases hc : (ends_with_sentence_end (segOfGroup (f, gs)).text
        || decide (e.start > (segOfGroup (f, gs)).stop + g)) = true
    · rw [show groupLoop g f gs (e :: rest) = (f, gs) :: groupLoop g e [] rest by
            simp [groupLoop, hc]]
      simp [ih e []]
    · rw [show groupLoop g f gs (e :: rest) = groupLoop g f (gs ++ [e]) rest by
            simp [groupLoop, hc]]
      simp [ih f (gs ++ [e])]

/-- Each input entry belongs to exactly one run, in order: flattening the
constituent runs gives back the input. -/
lemma merge_groups_join (ts : List Seg) (g : ℚ) :
    ((merge_groups ts g).map (fun p => p.1 :: p.2)).flatten = ts := by
  cases ts with
  | nil => rfl
  | cons f rest => exact groupLoop_join g rest f []

/-- `mergeLoop` always emits at least one segment; the first one keeps the
current segment's start, and its text is the current text possibly extended
(so strictly longer when extended). -/
lemma mergeLoop_first (g : ℚ) :
    ∀ (fs : List Seg) (cur : Seg), ∃ s l, mergeLoop g cur fs = s :: l ∧
      s.start = cur.start ∧ (s.text = cur.text ∨ cur.text.length < s.text.length) := by
  intro fs
  induction fs with
  | nil => intro cur; exact ⟨cur, [], rfl, rfl, Or.inl rfl⟩
  | cons e rest ih =>
    intro cur
    by_cases hc : (ends_with_sentence_end cur.text
        || decide (e.start > cur.stop + g)) = true
    · exact ⟨cur, mergeLoop g ⟨e.start, e.stop, pyStrip e.text⟩ rest,
        by simp [mergeLoop, hc], rfl, Or.inl rfl⟩
    · obtain ⟨s, l, hs, hstart, htext⟩ :=
        ih ⟨cur.start, e.stop, cur.text ++ " " ++ pyStrip e.text⟩
      have htext' : s.text = cur.text ++ " " ++ pyStrip e.text ∨
          (cur.text ++ " " ++ pyStrip e.text).length < s.text.length := htext
      refine ⟨s, l, ?_, hstart, Or.inr ?_⟩
      · rw [show mergeLoop g cur (e :: rest) =
            mergeLoop g ⟨cur.start, e.stop, cur.text ++ " " ++ pyStrip e.text⟩ rest by
              simp [mergeLoop, hc]]
        exact hs
      · have hsp : (" " : String).length = 1 := rfl
        have hlen : cur.text.length + 1 ≤ (cur.text ++ " " ++ pyStrip e.text).length := by
          simp only [String.length_append, hsp]
          omega
        rcases htext' with h | h
        · rw [h]; omega
        · omega

lemma mergeLoop_ne_nil (g : ℚ) (fs : List Seg) (cur : Seg) :
    mergeLoop g cur fs ≠ [] := by
  obtain ⟨s, l, hs, -, -⟩ := mergeLoop_first g fs cur
  simp [hs]

lemma mergeLoop_length (g : ℚ) :
    ∀ (fs : List Seg) (cur : Seg), (mergeLoop g cur fs).length ≤ fs.length + 1 := by
  intro fs
  induction fs with
  | nil => intro cur; simp [mergeLoop]
  | cons e rest ih =>
    intro cur
    by_cases hc : (ends_with_sentence_end cur.text
        || decide (e.start > cur.stop + g)) = true
    · rw [show mergeLoop g cur (e :: rest) =
          cur :: mergeLoop g ⟨e.start, e.stop, pyStrip e.text⟩ rest by
            simp [mergeLoop, hc]]
      have := ih ⟨e.start, e.stop, pyStrip e.text⟩
      simp only [List.length_cons]
      omega
    · rw [show mergeLoop g cur (e :: rest) =
          mergeLoop g ⟨cur.start, e.stop, cur.text ++ " " ++ pyStrip e.text⟩ rest by
            simp [mergeLoop, hc]]
      have := ih ⟨cur.start, e.stop, cur.text ++ " " ++ pyStrip e.text⟩
      simp only [List.length_cons]
      omega

/-- The split condition as the specification words it: the current segment's
text is non-empty with last character among `. ? ! " ' )`, or the entry's
start strictly exceeds the current segment's end plus the gap threshold. -/
def SplitConditionSpec (g : ℚ) (cur e : Seg) : Prop :=
  (cur.text ≠ "" ∧ ∃ c, cur.text.data.getLast? = some c ∧ c ∈ sentence_end_punct)
    ∨ e.start > cur.stop + g

lemma ends_with_sentence_end_iff (s : String) :
    ends_with_sentence_end s = true ↔
      s ≠ "" ∧ ∃ c, s.data.getLast? = some c ∧ c ∈ sentence_end_punct := by
  unfold ends_with_sentence_end
  cases h : s.data.getLast? with
  | none =>
    simp only [h]
    constructor
    · intro hf; cases hf
    · rintro ⟨-, c, hc, -⟩; cases hc
  | some c =>
    have hne : s ≠ "" := by
      intro he
      rw [he] at h
      cases h
    simp only [h]
    constructor
    · intro hcont
      exact ⟨hne, c, rfl, by simpa using hcont⟩
    · rintro ⟨-, c2, hc2, hmem⟩
      have : c2 = c := (Option.some_inj.mp hc2).symm
      subst this
      simpa using hmem

lemma splitCondition_iff (g : ℚ) (cur e : Seg) :
    (ends_with_sentence_end cur.text || decide (e.start > cur.stop + g)) = true ↔
      SplitConditionSpec g cur e := by
  rw [Bool.or_eq_true, decide_eq_true_iff, ends_with_sentence_end_iff]
  rfl

/-- Ordering invariants of the merge loop, for sorted well-formed input. -/
lemma mergeLoop_invariants (g : ℚ) :
    ∀ (fs : List Seg) (cur : Seg),
      cur.start ≤ cur.stop →
      (∀ f ∈ fs, cur.start ≤ f.start) →
      List.Pairwise (fun a b => a.start ≤ b.start) fs →
      (∀ f ∈ fs, f.start ≤ f.stop) →
      (∀ s ∈ mergeLoop g cur fs, s.start ≤ s.stop) ∧
      List.Chain' (fun a b => a.start ≤ b.start) (mergeLoop g cur fs) ∧
      (∀ s ∈ mergeLoop g cur fs, cur.start ≤ s.start) := by
  intro fs
  induction fs with
  | nil =>
    intro cur hcur _ _ _
    refine ⟨?_, ?_, ?_⟩
    · intro s hs; rw [show mergeLoop g cur [] = [cur] from rfl] at hs
      simp at hs; subst hs; exact hcur
    · exact List.chain'_singleton cur
    · intro s hs; rw [show mergeLoop g cur [] = [cur] from rfl] at hs
      simp at hs; subst hs; exact le_refl _
  | cons e rest ih =>
    intro cur hcur hbound hsorted hwf
    have hce : cur.start ≤ e.start := hbound e (List.mem_cons_self e rest)
    have hee : e.start ≤ e.stop := hwf e (List.mem_cons_self e rest)
    have hrest_sorted : List.Pairwise (fun a b => a.start ≤ b.start) rest :=
      (List.pairwise_cons.mp hsorted).2
    have hrest_bound : ∀ f ∈ rest, e.start ≤ f.start :=
      (List.pairwise_cons.mp hsorted).1
    have hrest_wf : ∀ f ∈ rest, f.start ≤ f.stop :=
      fun f hf => hwf f (List.mem_cons_of_mem e hf)
    by_cases hc : (ends_with_sentence_end cur.text
        || decide (e.start > cur.stop + g)) = true
    · have heq : mergeLoop g cur (e :: rest) =
          cur :: mergeLoop g ⟨e.start, e.stop, pyStrip e.text⟩ rest := by
        simp [mergeLoop, hc]
      obtain ⟨ih1, ih2, ih3⟩ := ih ⟨e.start, e.stop, pyStrip e.text⟩ hee
        hrest_bound hrest_sorted hrest_wf
      rw [heq]
      refine ⟨?_, ?_, ?_⟩
      · intro s hs
        rcases List.mem_cons.mp hs with rfl | hs
        · exact hcur
        · exact ih1 s hs
      · refine List.chain'_cons'.mpr ⟨?_, ih2⟩
        intro b hb
        have hbmem := List.mem_of_mem_head? hb
        exact hce.trans (ih3 b hbmem)
      · intro s hs
        rcases List.mem_cons.mp hs with rfl | hs
        · exact le_refl _
        · exact hce.trans (ih3 s hs)
    · have heq : mergeLoop g cur (e :: rest) =
          mergeLoop g ⟨cur.start, e.stop, cur.text ++ " " ++ pyStrip e.text⟩ rest := by
        simp [mergeLoop, hc]
      obtain ⟨ih1, ih2, ih3⟩ :=
        ih ⟨cur.start, e.stop, cur.text ++ " " ++ pyStrip e.text⟩
          (hce.trans hee)
          (fun f hf => hbound f (List.mem_cons_of_mem e hf))
          hrest_sorted hrest_wf
      rw [heq]
      exact ⟨ih1, ih2, ih3⟩

/-- C1 (counterexample): on the end-to-end fragments
`[{0,2,"Hi there."},{2,2,"How are you"},{5,2,"today?"}]` (ends synthesized as
start+duration) with `max_gap = 1.5`, `merge_transcript_segments` does NOT
return the three segments the claim predicts: after "Hi there." splits, the
current segment ends at 4, and 5 ≤ 4 + 1.5, so "today?" is merged, not split. -/
theorem claim_c1_counterexample :
    merge_transcript_segments
      [⟨0, 2, "Hi there."⟩, ⟨2, 4, "How are you"⟩, ⟨5, 7, "today?"⟩] 1.5 ≠
      [⟨0, 2, "Hi there."⟩, ⟨2, 4, "How are you"⟩, ⟨5, 7, "today?"⟩] := by
  rw [merge_transcript_segments,
    mergeLoop_cons_split _ _ _ _ (Or.inl (by decide)),
    mergeLoop_cons_extend _ _ _ _ (by decide) (by norm_num),
    mergeLoop]
  decide

/-- C1 (amended): on those fragments the merge returns exactly two segments,
`["Hi there."]` at [0,2] and `["How are you today?"]` at [2,7]; no split
occurs before "today?" because 5 ≤ 4 + 1.5 (the current segment's end is 4,
not 2). -/
theorem claim_c1_thm :
    merge_transcript_segments
      [⟨0, 2, "Hi there."⟩, ⟨2, 4, "How are you"⟩, ⟨5, 7, "today?"⟩] 1.5 =
      [⟨0, 2, "Hi there."⟩, ⟨2, 7, "How are you today?"⟩] := by
  rw [merge_transcript_segments,
    mergeLoop_cons_split _ _ _ _ (Or.inl (by decide)),
    mergeLoop_cons_extend _ _ _ _ (by decide) (by norm_num),
    mergeLoop]
  decide

/-- C2: for every fragment after the first, the current segment is closed
and a new one started iff the current text is non-empty with last character
in `. ? ! " ' )` or the fragment's start strictly exceeds the current end
plus `max_gap`; otherwise (in particular when the gap exactly equals
`max_gap` and the text does not end in such punctuation) the trimmed text is
appended after a single space and the end is extended to the fragment's end. -/
theorem claim_c2_thm (g : ℚ) (cur e : Seg) (rest : List Seg) :
    (mergeLoop g cur (e :: rest) =
        cur :: mergeLoop g ⟨e.start, e.stop, pyStrip e.text⟩ rest ↔
      SplitConditionSpec g cur e) ∧
    (¬ SplitConditionSpec g cur e →
      mergeLoop g cur (e :: rest) =
        mergeLoop g ⟨cur.start, e.stop, cur.text ++ " " ++ pyStrip e.text⟩ rest) ∧
    (e.start = cur.stop + g →
      ¬(cur.text ≠ "" ∧ ∃ c, cur.text.data.getLast? = some c ∧ c ∈ sentence_end_punct) →
      mergeLoop g cur (e :: rest) =
        mergeLoop g ⟨cur.start, e.stop, cur.text ++ " " ++ pyStrip e.text⟩ rest) := by
  have hext : ¬ SplitConditionSpec g cur e →
      mergeLoop g cur (e :: rest) =
        mergeLoop g ⟨cur.start, e.stop, cur.text ++ " " ++ pyStrip e.text⟩ rest := by
    intro h
    have hb : (ends_with_sentence_end cur.text
        || decide (e.start > cur.stop + g)) = false := by
      cases hB : (ends_with_sentence_end cur.text
          || decide (e.start > cur.stop + g)) with
      | false => rfl
      | true => exact absurd ((splitCondition_iff g cur e).mp hB) h
    obtain ⟨h1, h2⟩ := Bool.or_eq_false_iff.mp hb
    exact mergeLoop_cons_extend g cur e rest h1 (of_decide_eq_false h2)
  refine ⟨⟨?_, ?_⟩, hext, ?_⟩
  · intro heq
    by_contra h
    have hx := hext h
    rw [heq] at hx
    obtain ⟨s, l, hs, -, htext⟩ :=
      mergeLoop_first g rest ⟨cur.start, e.stop, cur.text ++ " " ++ pyStrip e.text⟩
    rw [hs] at hx
    have hcur : cur = s := (List.cons.injEq _ _ _ _ ▸ hx).1
    have htext' : s.text = cur.text ++ " " ++ pyStrip e.text ∨
        (cur.text ++ " " ++ pyStrip e.text).length < s.text.length := htext
    have hsp : (" " : String).length = 1 := rfl
    have hlen : (cur.text ++ " " ++ pyStrip e.text).length =
        cur.text.length + 1 + (pyStrip e.text).length := by
      simp only [String.length_append, hsp]
    have hst : s.text.length = cur.text.length := by rw [← hcur]
    rcases htext' with h' | h'
    · have := congrArg String.length h'
      omega
    · omega
  · intro h
    rcases h with hp | hg
    · exact mergeLoop_cons_split g cur e rest
        (Or.inl ((ends_with_sentence_end_iff cur.text).mpr hp))
    · exact mergeLoop_cons_split g cur e rest (Or.inr hg)
  · intro heq hpunct
    refine hext ?_
    rintro (hp | hg)
    · exact hpunct hp
    · rw [heq] at hg
      exact lt_irrefl _ hg

/-- C2 (witness): a concrete non-splitting step — "Hi" does not end in
terminal punctuation and the gap is within the threshold, so the fragment is
appended. -/
theorem claim_c2_witness :
    mergeLoop 1.5 ⟨0, 1, "Hi"⟩ [⟨1, 2, "there"⟩] =
      mergeLoop 1.5 ⟨0, 2, "Hi" ++ " " ++ pyStrip "there"⟩ [] :=
  (claim_c2_thm 1.5 ⟨0, 1, "Hi"⟩ ⟨1, 2, "there"⟩ []).2.1 (by
    rintro (h | h)
    · exact absurd h (by decide)
    · norm_num at h)

/-- C3: the merge of a fragment sequence is non-empty iff the sequence is
non-empty (empty input yields empty output), and the number of output
segments never exceeds the number of input fragments. -/
theorem claim_c3_thm (ts : List Seg) (g : ℚ) :
    (merge_transcript_segments ts g ≠ [] ↔ ts ≠ []) ∧
    (merge_transcript_segments ts g).length ≤ ts.length := by
  cases ts with
  | nil => simp [merge_transcript_segments]
  | cons f rest =>
    constructor
    · constructor
      · intro _; exact List.cons_ne_nil f rest
      · intro _
        exact mergeLoop_ne_nil g rest ⟨f.start, f.stop, pyStrip f.text⟩
    · show (mergeLoop g ⟨f.start, f.stop, pyStrip f.text⟩ rest).length ≤ _
      have := mergeLoop_length g rest ⟨f.start, f.stop, pyStrip f.text⟩
      simp only [List.length_cons]
      omega

/-- C4 (counterexample): for the sorted, well-formed fragments
`[{0,2,"Hi."},{1,3,"yo"}]` (overlapping times, as the caption source may
deliver), the punctuation split keeps the original time spans, so the two
output segments overlap: the first ends at 2 after the second starts at 1.
The non-overlap part of the claim is false. -/
theorem claim_c4_counterexample :
    List.Chain' (fun a b => a.start ≤ b.start)
      [(⟨0, 2, "Hi."⟩ : Seg), ⟨1, 3, "yo"⟩] ∧
    List.Forall (fun f => f.start ≤ f.stop) [(⟨0, 2, "Hi."⟩ : Seg), ⟨1, 3, "yo"⟩] ∧
    merge_transcript_segments [(⟨0, 2, "Hi."⟩ : Seg), ⟨1, 3, "yo"⟩] 1.5 =
      [⟨0, 2, "Hi."⟩, ⟨1, 3, "yo"⟩] ∧
    ¬ List.Chain' (fun a b => a.stop ≤ b.start)
        (merge_transcript_segments [(⟨0, 2, "Hi."⟩ : Seg), ⟨1, 3, "yo"⟩] 1.5) := by
  have heval : merge_transcript_segments [(⟨0, 2, "Hi."⟩ : Seg), ⟨1, 3, "yo"⟩] 1.5 =
      [⟨0, 2, "Hi."⟩, ⟨1, 3, "yo"⟩] := by
    rw [merge_transcript_segments,
      mergeLoop_cons_split _ _ _ _ (Or.inl (by decide)),
      mergeLoop]
    decide
  refine ⟨?_, ?_, heval, ?_⟩
  · simp only [List.chain'_cons, List.chain'_singleton, and_true]
    norm_num
  · simp only [List.Forall]
    norm_num
  · rw [heval]
    simp only [List.chain'_cons, List.chain'_singleton, and_true]
    norm_num

/-- C4 (amended): for input fragments sorted by start with each fragment's
end at or after its start, every output segment has end ≥ start, the output
is in nondecreasing start order, and each output segment is the collapse of
its run of constituent fragments (start of the first, end of the last, the
runs partitioning the input in order).  Consecutive output segments may
overlap when input fragments overlap. -/
theorem claim_c4_thm (ts : List Seg) (g : ℚ)
    (hsorted : List.Pairwise (fun a b => a.start ≤ b.start) ts)
    (hwf : ∀ f ∈ ts, f.start ≤ f.stop) :
    (∀ s ∈ merge_transcript_segments ts g, s.start ≤ s.stop) ∧
    List.Chain' (fun a b => a.start ≤ b.start) (merge_transcript_segments ts g) ∧
    merge_transcript_segments ts g = (merge_groups ts g).map segOfGroup ∧
    ((merge_groups ts g).map (fun p => p.1 :: p.2)).flatten = ts := by
  refine ⟨?_, ?_, merge_eq_groups ts g, merge_groups_join ts g⟩ <;>
  · cases ts with
    | nil => simp [merge_transcript_segments]
    | cons f rest =>
      have hcur : f.start ≤ f.stop := hwf f (List.mem_cons_self f rest)
      obtain ⟨i1, i2, -⟩ := mergeLoop_invariants g rest
        ⟨f.start, f.stop, pyStrip f.text⟩ hcur
        (List.pairwise_cons.mp hsorted).1
        (List.pairwise_cons.mp hsorted).2
        (fun x hx => hwf x (List.mem_cons_of_mem f hx))
      first
      | exact i1
      | exact i2

/-- C4 (witness): a concrete sorted well-formed input on which the output is
in nondecreasing start order. -/
theorem claim_c4_witness :
    List.Chain' (fun a b => a.start ≤ b.start)
      (merge_transcript_segments [(⟨0, 1, "a"⟩ : Seg)] 1.5) :=
  (claim_c4_thm [⟨0, 1, "a"⟩] 1.5 (by simp) (by
    intro f hf
    simp only [List.mem_singleton] at hf
    subst hf
    norm_num)).2.1

/-- C10: each output segment's text is the whitespace-trimmed texts of its
constituent fragments joined by single spaces (via the run decomposition of
the merge); a fragment with empty trimmed text still contributes a joining
space and its timing (it sits in the runs like any other), and a text ending
in a space never satisfies the terminal-punctuation check. -/
theorem claim_c10_thm (ts : List Seg) (g : ℚ) :
    merge_transcript_segments ts g = (merge_groups ts g).map segOfGroup ∧
    ((merge_groups ts g).map (fun p => p.1 :: p.2)).flatten = ts ∧
    (∀ (f : Seg) (gs : List Seg), (segOfGroup (f, gs)).text =
      joinSp ((f :: gs).map (fun e => pyStrip e.text))) ∧
    (∀ s : String, ends_with_sentence_end (s ++ " ") = false) := by
  refine ⟨merge_eq_groups ts g, merge_groups_join ts g, fun f gs => rfl, ?_⟩
  intro s
  unfold ends_with_sentence_end
  have hdata : (s ++ " ").data = s.data ++ [' '] := by
    rw [String.data_append]
  rw [hdata, List.getLast?_concat]
  rfl

/-! ### `get_video_id`: the pattern `(?:v=|\/)([0-9A-Za-z_-]{11}).*` -/

/-- The character class `[0-9A-Za-z_-]` of the video-id pattern. -/
def validIdChar (c : Char) : Bool := c.isAlphanum || c == '_' || c == '-'

/-- Match the group `([0-9A-Za-z_-]{11})` at the front of `l`: exactly
eleven class characters (the trailing `.*` always matches, zero or more). -/
def takeId (l : List Char) : Option (List Char) :=
  if (l.take 11).length = 11 ∧ (l.take 11).all validIdChar = true then
    some (l.take 11)
  else none

/-- After a leading `v`, the alternative `v=` still needs the `=` before
the id group. -/
def matchAfterV : List Char → Option (List Char)
  | [] => none
  | c2 :: rest2 => if c2 = '=' then takeId rest2 else none

/-- Try the alternation `(?:v=|\/)` at the current position, then the
id group right after it. -/
def matchHere : List Char → Option (List Char)
  | [] => none
  | c :: rest =>
    if c = 'v' then matchAfterV rest
    else if c = '/' then takeId rest
    else none

/-- `re.search`: scan positions left to right, returning the group of the
first position where the pattern matches. -/
def searchId : List Char → Option (List Char)
  | [] => none
  | c :: rest =>
    match matchHere (c :: rest) with
    | some r => some r
    | none => searchId rest

/-- `get_video_id(url)` from `yt_transcript.py`. -/
def get_video_id (url : String) : Option String :=
  (searchId url.data).map fun r => ⟨r⟩

/-- An eleven-character id run `r` inside `l`, preceded immediately by `v=`
or `/`, with `i` the index at which the run starts. -/
def IdRunAt (l : List Char) (i : ℕ) (r : List Char) : Prop :=
  ∃ a p b, l = a ++ p ++ r ++ b ∧ (p = ['v', '='] ∨ p = ['/']) ∧
    a.length + p.length = i ∧ r.length = 11 ∧ r.all validIdChar = true

lemma takeId_eq_some (l r : List Char) :
    takeId l = some r ↔
      r.length = 11 ∧ r.all validIdChar = true ∧ ∃ b, l = r ++ b := by
  constructor
  · intro h
    unfold takeId at h
    split at h
    · rename_i hcond
      obtain ⟨h11, hall⟩ := hcond
      have hr : r = l.take 11 := (Option.some_inj.mp h).symm
      subst hr
      exact ⟨h11, hall, l.drop 11, (List.take_append_drop 11 l).symm⟩
    · cases h
  · rintro ⟨h11, hall, b, rfl⟩
    have htake : (r ++ b).take 11 = r := List.take_left' h11
    unfold takeId
    rw [htake]
    simp [h11, hall]

lemma matchHere_eq_some (l r : List Char) :
    matchHere l = some r ↔
      ∃ p b, l = p ++ r ++ b ∧ (p = ['v', '='] ∨ p = ['/']) ∧
        r.length = 11 ∧ r.all validIdChar = true := by
  constructor
  · intro h
    match l with
    | [] => cases h
    | c :: rest =>
      rw [matchHere] at h
      by_cases hv : c = 'v'
      · subst hv
        rw [if_pos rfl] at h
        match rest with
        | [] => cases h
        | c2 :: rest2 =>
          rw [matchAfterV] at h
          by_cases he : c2 = '='
          · subst he
            rw [if_pos rfl] at h
            obtain ⟨h11, hall, b, rfl⟩ := (takeId_eq_some rest2 r).mp h
            exact ⟨['v', '='], b, rfl, Or.inl rfl, h11, hall⟩
          · rw [if_neg he] at h; cases h
      · rw [if_neg hv] at h
        by_cases hs : c = '/'
        · subst hs
          rw [if_pos rfl] at h
          obtain ⟨h11, hall, b, rfl⟩ := (takeId_eq_some rest r).mp h
          exact ⟨['/'], b, rfl, Or.inr rfl, h11, hall⟩
        · rw [if_neg hs] at h; cases h
  · rintro ⟨p, b, rfl, hp | hp, h11, hall⟩ <;> subst hp
    · show matchHere ('v' :: '=' :: (r ++ b)) = some r
      rw [matchHere, if_pos rfl, matchAfterV, if_pos rfl]
      exact (takeId_eq_some _ r).mpr ⟨h11, hall, b, rfl⟩
    · show matchHere ('/' :: (r ++ b)) = some r
      rw [matchHere, if_neg (by decide), if_pos rfl]
      exact (takeId_eq_some _ r).mpr ⟨h11, hall, b, rfl⟩

lemma searchId_spec :
    ∀ (l : List Char) (r : List Char), searchId l = some r →
      ∃ i, IdRunAt l i r ∧ ∀ j r', IdRunAt l j r' → i ≤ j := by
  intro l
  induction l with
  | nil => intro r h; cases h
  | cons c rest ih =>
    intro r h
    rw [searchId] at h
    cases hm : matchHere (c :: rest) with
    | some r0 =>
      rw [hm] at h
      have hr : r0 = r := Option.some_inj.mp h
      subst hr
      obtain ⟨p, b, hl, hp, h11, hall⟩ := (matchHere_eq_some _ r0).mp hm
      refine ⟨p.length, ⟨[], p, b, by simpa using hl, hp, by simp, h11, hall⟩, ?_⟩
      rintro j r' ⟨a', p', b', hl', hp', hj, h11', hall'⟩
      have hp'len : 1 ≤ p'.length := by rcases hp' with rfl | rfl <;> simp
      rcases hp with rfl | rfl
      · by_cases ha : a' = []
        · subst ha
          rcases hp' with rfl | rfl
          · simp at hj ⊢; omega
          · exfalso
            have h1 : (c :: rest).head? = some 'v' := by rw [hl]; rfl
            have h2 : (c :: rest).head? = some '/' := by rw [hl']; rfl
            rw [h1] at h2
            exact absurd (Option.some_inj.mp h2) (by decide)
        · have h1 : 1 ≤ a'.length := List.length_pos.mpr ha
          simp only [List.length_cons, List.length_nil] at hj ⊢
          omega
      · simp only [List.length_cons, List.length_nil] at hj ⊢
        omega
    | none =>
      rw [hm] at h
      obtain ⟨i, hrun, hmin⟩ := ih r h
      obtain ⟨a, p, b, hl, hp, hi, h11, hall⟩ := hrun
      refine ⟨i + 1, ⟨c :: a, p, b, by rw [hl]; rfl, hp, by simp; omega, h11, hall⟩, ?_⟩
      rintro j r' ⟨a', p', b', hl', hp', hj, h11', hall'⟩
      cases a' with
      | nil =>
        exfalso
        have : matchHere (c :: rest) = some r' :=
          (matchHere_eq_some _ r').mpr ⟨p', b', by simpa using hl', hp', h11', hall'⟩
        rw [hm] at this
        cases this
      | cons c0 a'' =>
        have hc0 : c0 = c ∧ rest = a'' ++ p' ++ r' ++ b' := by
          have := hl'
          simp only [List.cons_append] at this
          exact ⟨(List.cons.injEq _ _ _ _ ▸ this).1.symm,
            (List.cons.injEq _ _ _ _ ▸ this).2⟩
        have hrest : IdRunAt rest (a''.length + p'.length) r' :=
          ⟨a'', p', b', hc0.2, hp', rfl, h11', hall'⟩
        have := hmin _ _ hrest
        simp only [List.length_cons] at hj
        omega

lemma searchId_complete :
    ∀ (l : List Char) (i : ℕ) (r : List Char), IdRunAt l i r →
      (searchId l).isSome = true := by
  intro l
  induction l with
  | nil =>
    rintro i r ⟨a, p, b, hl, hp, -, h11, -⟩
    have := congrArg List.length hl
    simp only [List.length_nil, List.length_append] at this
    rcases hp with rfl | rfl <;> simp at this <;> omega
  | cons c rest ih =>
    rintro i r hrun
    rw [searchId]
    cases hm : matchHere (c :: rest) with
    | some r0 => rfl
    | none =>
      obtain ⟨a, p, b, hl, hp, hi, h11, hall⟩ := hrun
      cases a with
      | nil =>
        exfalso
        have : matchHere (c :: rest) = some r :=
          (matchHere_eq_some _ r).mpr ⟨p, b, by simpa using hl, hp, h11, hall⟩
        rw [hm] at this
        cases this
      | cons c0 a'' =>
        have hrest : rest = a'' ++ p ++ r ++ b := by
          have := hl
          simp only [List.cons_append] at this
          exact (List.cons.injEq _ _ _ _ ▸ this).2
        exact ih (a''.length + p.length) r ⟨a'', p, b, hrest, hp, rfl, h11, hall⟩

lemma idRunAt_unique (l : List Char) (i : ℕ) (r r' : List Char)
    (h1 : IdRunAt l i r) (h2 : IdRunAt l i r') : r = r' := by
  have key : ∀ (a p b rr : List Char), l = a ++ p ++ rr ++ b →
      a.length + p.length = i → rr.length = 11 → rr = (l.drop i).take 11 := by
    rintro a p b rr rfl hi h11
    rw [show a ++ p ++ rr ++ b = (a ++ p) ++ (rr ++ b) by simp,
      List.drop_left' (by simp [hi]), List.take_left' h11]
  obtain ⟨a, p, b, hl, -, hi, h11, -⟩ := h1
  obtain ⟨a', p', b', hl', -, hi', h11', -⟩ := h2
  rw [key a p b r hl hi h11, key a' p' b' r' hl' hi' h11']

/-- C9: `get_video_id` returns `None` or a string of exactly eleven
characters from `[0-9A-Za-z_-]`; it returns a value exactly when the url
contains `v=` or `/` immediately followed by eleven such characters, and the
value returned is the earliest such run (unique at that position). -/
theorem claim_c9_thm (url : String) :
    (∀ r, get_video_id url = some r →
      r.length = 11 ∧ r.data.all validIdChar = true) ∧
    ((get_video_id url).isSome = true ↔ ∃ i r, IdRunAt url.data i r) ∧
    (∀ r, get_video_id url = some r →
      ∃ i, IdRunAt url.data i r.data ∧ (∀ j r', IdRunAt url.data j r' → i ≤ j) ∧
        (∀ r', IdRunAt url.data i r' → r' = r.data)) := by
  have hsome : ∀ r, get_video_id url = some r → searchId url.data = some r.data := by
    intro r h
    unfold get_video_id at h
    obtain ⟨r0, hr0, hmk⟩ := Option.map_eq_some'.mp h
    rw [hr0]
    rw [← hmk]
  have hIsSome : (get_video_id url).isSome = (searchId url.data).isSome := by
    unfold get_video_id
    cases searchId url.data <;> rfl
  refine ⟨?_, ⟨?_, ?_⟩, ?_⟩
  · intro r h
    obtain ⟨i, ⟨a, p, b, hl, hp, hi, h11, hall⟩, -⟩ :=
      searchId_spec url.data r.data (hsome r h)
    exact ⟨h11, hall⟩
  · intro h
    rw [hIsSome] at h
    obtain ⟨r0, hr0⟩ := Option.isSome_iff_exists.mp h
    obtain ⟨i, hrun, -⟩ := searchId_spec url.data r0 hr0
    exact ⟨i, r0, hrun⟩
  · rintro ⟨i, r, hrun⟩
    rw [hIsSome]
    exact searchId_complete url.data i r hrun
  · intro r h
    obtain ⟨i, hrun, hmin⟩ := searchId_spec url.data r.data (hsome r h)
    exact ⟨i, hrun, hmin, fun r' h' => idRunAt_unique url.data i r' r.data h' hrun⟩

/-- C9 (witness): on the example url of the source, the extracted id is the
eleven-character run after `v=`. -/
theorem claim_c9_witness :
    ("HNpYAz_I4yY" : String).length = 11 ∧
      ("HNpYAz_I4yY" : String).data.all validIdChar = true :=
  (claim_c9_thm "https://www.youtube.com/watch?v=HNpYAz_I4yY").1
    "HNpYAz_I4yY" (by decide)

/-! ### `get_clean_transcript`: acquisition orchestration and persistence -/

/-- Python `str.startswith`, on explicit character lists. -/
def strHasStart : List Char → List Char → Bool
  | [], _ => true
  | _ :: _, [] => false
  | p :: ps, c :: cs => p == c && strHasStart ps cs

/-- Python `s.startswith(p)`. -/
def strStarts (p s : String) : Bool := strHasStart p.data s.data

/-- A raw entry as the caption API returns it: `end` may be absent, and
`duration` is read with `entry.get('duration', 0)`.  The Python key `end`
is a Lean keyword, so it is `stop?` here. -/
structure RawEntry where
  start : ℚ
  duration : Option ℚ
  stop? : Option ℚ
  text : String
deriving DecidableEq, Repr

/-- The `if 'end' not in entry` normalization of `get_clean_transcript`:
synthesize a missing `end` as `start + duration` (0 for a missing
duration). -/
def normalizeEntry (e : RawEntry) : Seg :=
  ⟨e.start, e.stop?.getD (e.start + e.duration.getD 0), e.text⟩

/-- Outcome of `YouTubeTranscriptApi.list_transcripts`: `TranscriptsDisabled`,
some other exception, or the available language codes (manually created
tracks updated with generated ones, in dict-key order). -/
inductive ListTranscriptsResult where
  | disabled
  | failure (msg : String)
  | ok (langs : List String)

/-- One video's caption-source behaviour: each fetch either raises (`none`)
or returns its list of raw entries (`some`). -/
structure SourceBehavior where
  listTranscripts : ListTranscriptsResult
  directFetch : Option (List RawEntry)
  variantFetch : String → Option (List RawEntry)
  translateFetch : String → Option (List RawEntry)

/-- Python truthiness of the `transcript_list` variable: `None` and the
empty list are falsy. -/
def tlFalsy : Option (List RawEntry) → Bool
  | none => true
  | some [] => true
  | some (_ :: _) => false

/-- The English-variant loop: an exception is skipped; a fetched transcript
is remembered, and the loop stops only when it is non-empty
(`if transcript_list: break`). -/
def tryVariants (fetch : String → Option (List RawEntry)) :
    List String → Option (List RawEntry) → Option (List RawEntry)
  | [], tl => tl
  | lang :: rest, tl =>
    match fetch lang with
    | none => tryVariants fetch rest tl
    | some l => if l.isEmpty then tryVariants fetch rest (some l) else some l

/-- The translation loop over non-English tracks: the first successful
`translate('en').fetch()` wins (the loop breaks even on an empty result). -/
def tryTranslations (fetch : String → Option (List RawEntry)) :
    List String → Option (List RawEntry)
  | [] => none
  | lang :: rest =>
    match fetch lang with
    | none => tryTranslations fetch rest
    | some l => some l

/-- The nested `try` of `get_clean_transcript`: direct English fetch first;
on an exception, the `en`-prefixed variants in order; translations of the
remaining tracks are consulted only while `transcript_list` is still falsy. -/
def fetchTranscript (b : SourceBehavior) (langs : List String) :
    Option (List RawEntry) :=
  match b.directFetch with
  | some l => some l
  | none =>
    let tl := tryVariants b.variantFetch
      (langs.filter (fun lang => strStarts "en" lang)) none
    if tlFalsy tl then
      match tryTranslations b.translateFetch
          (langs.filter (fun lang => !(strStarts "en" lang))) with
      | some l => some l
      | none => tl
    else tl

/-- `transcripts/transcript_<video_id>_<timestamp>.txt`, the write target
(`ts` stands for `datetime.now().strftime("%Y%m%d_%H%M%S")`). -/
def transcriptFilename (video_id ts : String) : String :=
  "transcripts/transcript_" ++ video_id ++ "_" ++ ts ++ ".txt"

/-- Serialized file content: one line per merged segment — the stripped
segment text followed by a newline. -/
def transcriptContent (segs : List Seg) : String :=
  String.join (segs.map (fun seg => pyStrip seg.text ++ "\n"))

/-- What one `get_clean_transcript` call returns and writes. -/
structure GctOutcome where
  message : String
  written : Option (String × String)
deriving DecidableEq, Repr

/-- The save step of `get_clean_transcript`: guard against an empty merge
result, then write the file and report success. -/
def saveTranscript (video_id ts : String) (cleaned : List Seg) : GctOutcome :=
  if cleaned.isEmpty then ⟨"Error: No transcript segments were generated", none⟩
  else
    ⟨"✅ Transcript saved to \x27" ++ transcriptFilename video_id ts
        ++ "\x27 successfully",
      some (transcriptFilename video_id ts, transcriptContent cleaned)⟩

/-- After the fetch pipeline: a falsy `transcript_list` (exception
throughout, or an empty list) is the captions error; otherwise normalize
the entries, merge, and save. -/
def gctFetched (video_id ts : String) : Option (List RawEntry) → GctOutcome
  | none =>
    ⟨"Error: Could not fetch any transcript for this video. Please check if the video has captions enabled.", none⟩
  | some [] =>
    ⟨"Error: Could not fetch any transcript for this video. Please check if the video has captions enabled.", none⟩
  | some (e :: es) =>
    saveTranscript video_id ts
      (merge_transcript_segments ((e :: es).map normalizeEntry))

/-- After `list_transcripts`: disabled and other exceptions map to tagged
error strings; an empty track dict is its own error; otherwise run the
fetch pipeline. -/
def gctListed (b : SourceBehavior) (video_id ts : String) : GctOutcome :=
  match b.listTranscripts with
  | ListTranscriptsResult.disabled =>
    ⟨"Error: Transcripts are disabled for this video", none⟩
  | ListTranscriptsResult.failure msg =>
    ⟨"Error: Could not access video transcripts. " ++ msg, none⟩
  | ListTranscriptsResult.ok langs =>
    if langs.isEmpty then ⟨"Error: No transcripts available for this video", none⟩
    else gctFetched video_id ts (fetchTranscript b langs)

/-- `get_clean_transcript(url)` from `yt_transcript.py`, over an explicit
caption-source behaviour `b` and formatted current time `ts`.  Collaborator
exceptions are `none`/`failure` values, so the model is total: the function
never raises past this boundary. -/
def get_clean_transcript (b : SourceBehavior) (url : String) (ts : String) :
    GctOutcome :=
  match get_video_id url with
  | none => ⟨"Error: Invalid YouTube URL", none⟩
  | some video_id => gctListed b video_id ts

/-- First non-exception result of an ordered list of fetch attempts. -/
def firstSome : List (Option (List RawEntry)) → Option (List RawEntry)
  | [] => none
  | none :: rest => firstSome rest
  | some l :: _ => some l

/-- The ordered fetch attempts of the orchestration: the direct English
fetch, then each available `en`-prefixed variant, then translation of each
remaining track. -/
def attemptList (b : SourceBehavior) (langs : List String) :
    List (Option (List RawEntry)) :=
  b.directFetch ::
    ((langs.filter (fun lang => strStarts "en" lang)).map b.variantFetch
      ++ (langs.filter (fun lang => !(strStarts "en" lang))).map b.translateFetch)

lemma firstSome_mem (L : List (Option (List RawEntry))) (l : List RawEntry)
    (h : firstSome L = some l) : some l ∈ L := by
  induction L with
  | nil => cases h
  | cons o rest ih =>
    cases o with
    | none => exact List.mem_cons_of_mem _ (ih h)
    | some x =>
      have : x = l := Option.some_inj.mp h
      subst this
      exact List.mem_cons_self _ _

lemma firstSome_append (A B : List (Option (List RawEntry))) :
    firstSome (A ++ B) =
      match firstSome A with
      | some l => some l
      | none => firstSome B := by
  induction A with
  | nil => rfl
  | cons o A ih =>
    cases o with
    | none => simpa [firstSome] using ih
    | some l => rfl

lemma tryTranslations_eq_firstSome (fetch : String → Option (List RawEntry)) :
    ∀ ls : List String, tryTranslations fetch ls = firstSome (ls.map fetch) := by
  intro ls
  induction ls with
  | nil => rfl
  | cons lang rest ih =>
    show tryTranslations fetch (lang :: rest) = _
    rw [tryTranslations]
    cases h : fetch lang with
    | none => simpa [firstSome, h] using ih
    | some l => simp [firstSome, h]

lemma tryVariants_clean (fetch : String → Option (List RawEntry)) :
    ∀ ls : List String,
      (∀ lang ∈ ls, ∀ t, fetch lang = some t → t ≠ []) →
      tryVariants fetch ls none = firstSome (ls.map fetch) := by
  intro ls
  induction ls with
  | nil => intro _; rfl
  | cons lang rest ih =>
    intro h
    rw [show tryVariants fetch (lang :: rest) none =
        (match fetch lang with
          | none => tryVariants fetch rest none
          | some l => if l.isEmpty then tryVariants fetch rest (some l) else some l)
        from rfl]
    cases hf : fetch lang with
    | none =>
      simpa [firstSome, hf] using ih (fun g hg => h g (List.mem_cons_of_mem lang hg))
    | some l =>
      have hne : l ≠ [] := h lang (List.mem_cons_self lang rest) l hf
      have : l.isEmpty = false := by
        cases l with
        | nil => exact absurd rfl hne
        | cons x xs => rfl
      simp [firstSome, hf, this]

lemma strHasStart_append (p : List Char) :
    ∀ x y, strHasStart p x = true → strHasStart p (x ++ y) = true := by
  induction p with
  | nil => intro x y _; rfl
  | cons a ps ih =>
    intro x y h
    cases x with
    | nil => cases h
    | cons c cs =>
      rw [show strHasStart (a :: ps) (c :: cs) = (a == c && strHasStart ps cs) from rfl]
        at h
      simp only [Bool.and_eq_true] at h
      obtain ⟨h1, h2⟩ := h
      show (a == c && strHasStart ps (cs ++ y)) = true
      rw [h1, ih cs y h2]
      rfl

lemma strStarts_append_left (p s t : String) (h : strStarts p s = true) :
    strStarts p (s ++ t) = true := by
  unfold strStarts at h ⊢
  rw [String.data_append]
  exact strHasStart_append p.data s.data t.data h

/-- C5: for every caption-source behaviour (success, per-language failure,
transcripts disabled, no tracks, arbitrary exception) the orchestration
returns a value — never an exception — and every outcome that writes
nothing carries a message starting with "Error"; moreover the transcript
used is the first success of the ordered attempts: direct English fetch,
then each `en`-prefixed variant, then translation of the other tracks
(exactly first-success when no attempt returns an empty track). -/
theorem claim_c5_thm (b : SourceBehavior) (url ts : String) :
    ((get_clean_transcript b url ts).written = none →
      strStarts "Error" (get_clean_transcript b url ts).message = true) ∧
    (∀ langs, b.listTranscripts = ListTranscriptsResult.ok langs →
      (∀ o ∈ attemptList b langs, ∀ t, o = some t → t ≠ []) →
      fetchTranscript b langs = firstSome (attemptList b langs)) := by
  constructor
  · intro hw
    cases hv : get_video_id url with
    | none =>
      have ho : get_clean_transcript b url ts = ⟨"Error: Invalid YouTube URL", none⟩ := by
        unfold get_clean_transcript
        rw [hv]
      rw [ho]
      decide
    | some vid =>
      have ho : get_clean_transcript b url ts = gctListed b vid ts := by
        unfold get_clean_transcript
        rw [hv]
      rw [ho] at hw ⊢
      cases hL : b.listTranscripts with
      | disabled =>
        have h2 : gctListed b vid ts =
            ⟨"Error: Transcripts are disabled for this video", none⟩ := by
          unfold gctListed
          rw [hL]
        rw [h2]
        decide
      | failure msg =>
        have h2 : gctListed b vid ts =
            ⟨"Error: Could not access video transcripts. " ++ msg, none⟩ := by
          unfold gctListed
          rw [hL]
        rw [h2]
        exact strStarts_append_left "Error"
          "Error: Could not access video transcripts. " msg (by decide)
      | ok langs =>
        have h2 : gctListed b vid ts =
            (if langs.isEmpty then
              (⟨"Error: No transcripts available for this video", none⟩ : GctOutcome)
            else gctFetched vid ts (fetchTranscript b langs)) := by
          unfold gctListed
          rw [hL]
        rw [h2] at hw ⊢
        by_cases he : langs.isEmpty = true
        · rw [if_pos he]
          decide
        · rw [if_neg he] at hw ⊢
          cases hf : fetchTranscript b langs with
          | none =>
            show strStarts "Error"
              "Error: Could not fetch any transcript for this video. Please check if the video has captions enabled." = true
            decide
          | some l =>
            cases l with
            | nil =>
              show strStarts "Error"
                "Error: Could not fetch any transcript for this video. Please check if the video has captions enabled." = true
              decide
            | cons e es =>
              rw [hf] at hw
              have h3 : gctFetched vid ts (some (e :: es)) =
                  saveTranscript vid ts
                    (merge_transcript_segments ((e :: es).map normalizeEntry)) := rfl
              rw [h3] at hw ⊢
              by_cases hc : (merge_transcript_segments
                  ((e :: es).map normalizeEntry)).isEmpty = true
              · unfold saveTranscript
                rw [if_pos hc]
                decide
              · unfold saveTranscript at hw
                rw [if_neg hc] at hw
                exact Option.noConfusion hw
  · intro langs hL hclean
    have htrans : tryTranslations b.translateFetch
        (langs.filter (fun lang => !(strStarts "en" lang))) =
        firstSome ((langs.filter (fun lang => !(strStarts "en" lang))).map
          b.translateFetch) :=
      tryTranslations_eq_firstSome b.translateFetch _
    unfold fetchTranscript attemptList
    cases hd : b.directFetch with
    | some l => rfl
    | none =>
      rw [show firstSome (none :: ((langs.filter (fun lang => strStarts "en" lang)).map
            b.variantFetch ++ (langs.filter (fun lang => !(strStarts "en" lang))).map
            b.translateFetch)) =
          firstSome ((langs.filter (fun lang => strStarts "en" lang)).map b.variantFetch
            ++ (langs.filter (fun lang => !(strStarts "en" lang))).map b.translateFetch)
          from rfl]
      rw [firstSome_append]
      have hmemA : ∀ lang, lang ∈ langs.filter (fun lang => strStarts "en" lang) →
          b.variantFetch lang ∈ attemptList b langs := by
        intro lang hm
        show b.variantFetch lang ∈ b.directFetch :: _
        exact List.mem_cons_of_mem _
          (List.mem_append_left _ (List.mem_map_of_mem b.variantFetch hm))
      have hv : tryVariants b.variantFetch
          (langs.filter (fun lang => strStarts "en" lang)) none =
          firstSome ((langs.filter (fun lang => strStarts "en" lang)).map
            b.variantFetch) := by
        refine tryVariants_clean b.variantFetch _ ?_
        intro lang hm t hft
        exact hclean (b.variantFetch lang) (hmemA lang hm) t hft
      rw [hv]
      cases hV : firstSome ((langs.filter (fun lang => strStarts "en" lang)).map
          b.variantFetch) with
      | none =>
        simp only [tlFalsy, if_true]
        rw [htrans]
        cases htr : firstSome ((langs.filter (fun lang => !(strStarts "en" lang))).map
            b.translateFetch) with
        | none => rfl
        | some t => rfl
      | some lv =>
        have hlv : lv ≠ [] := by
          have hmem := firstSome_mem _ lv hV
          obtain ⟨lang, hlang, hfl⟩ := List.mem_map.mp hmem
          exact hclean (b.variantFetch lang) (hmemA lang hlang) lv hfl
        cases lv with
        | nil => exact absurd rfl hlv
        | cons x xs => rfl

/-- C5 (witness): an invalid url yields an "Error"-prefixed message. -/
theorem claim_c5_witness :
    strStarts "Error"
      (get_clean_transcript
        ⟨ListTranscriptsResult.ok ["en"], none, fun _ => none, fun _ => none⟩
        "" "20240101_000000").message = true :=
  (claim_c5_thm
    ⟨ListTranscriptsResult.ok ["en"], none, fun _ => none, fun _ => none⟩
    "" "20240101_000000").1 rfl

/-- Effect of one call's write on a filesystem mapping paths to contents
(`open(filename, 'w')` replaces the content at that path). -/
def applyWrite (fsys : String → Option String) (o : GctOutcome) :
    String → Option String :=
  match o.written with
  | none => fsys
  | some fc => fun p => if p = fc.1 then some fc.2 else fsys p

/-- Every successful write targets
`transcripts/transcript_<video_id>_<timestamp>.txt` and serializes the
merged segments one stripped line each. -/
lemma written_some_eq (b : SourceBehavior) (url ts fn c : String)
    (h : (get_clean_transcript b url ts).written = some (fn, c)) :
    ∃ vid langs e es, get_video_id url = some vid ∧
      b.listTranscripts = ListTranscriptsResult.ok langs ∧
      fetchTranscript b langs = some (e :: es) ∧
      fn = transcriptFilename vid ts ∧
      c = transcriptContent (merge_transcript_segments ((e :: es).map normalizeEntry)) := by
  cases hv : get_video_id url with
  | none =>
    have ho : get_clean_transcript b url ts = ⟨"Error: Invalid YouTube URL", none⟩ := by
      unfold get_clean_transcript
      rw [hv]
    rw [ho] at h
    exact Option.noConfusion h
  | some vid =>
    have ho : get_clean_transcript b url ts = gctListed b vid ts := by
      unfold get_clean_transcript
      rw [hv]
    rw [ho] at h
    cases hL : b.listTranscripts with
    | disabled =>
      have h2 : gctListed b vid ts =
          ⟨"Error: Transcripts are disabled for this video", none⟩ := by
        unfold gctListed
        rw [hL]
      rw [h2] at h
      exact Option.noConfusion h
    | failure msg =>
      have h2 : gctListed b vid ts =
          ⟨"Error: Could not access video transcripts. " ++ msg, none⟩ := by
        unfold gctListed
        rw [hL]
      rw [h2] at h
      exact Option.noConfusion h
    | ok langs =>
      have h2 : gctListed b vid ts =
          (if langs.isEmpty then
            (⟨"Error: No transcripts available for this video", none⟩ : GctOutcome)
          else gctFetched vid ts (fetchTranscript b langs)) := by
        unfold gctListed
        rw [hL]
      rw [h2] at h
      by_cases he : langs.isEmpty = true
      · rw [if_pos he] at h
        exact Option.noConfusion h
      · rw [if_neg he] at h
        cases hf : fetchTranscript b langs with
        | none =>
          rw [hf] at h
          exact Option.noConfusion h
        | some l =>
          rw [hf] at h
          cases l with
          | nil => exact Option.noConfusion h
          | cons e es =>
            have h3 : gctFetched vid ts (some (e :: es)) =
                saveTranscript vid ts
                  (merge_transcript_segments ((e :: es).map normalizeEntry)) := rfl
            rw [h3] at h
            unfold saveTranscript at h
            by_cases hc : (merge_transcript_segments
                ((e :: es).map normalizeEntry)).isEmpty = true
            · rw [if_pos hc] at h
              exact Option.noConfusion h
            · rw [if_neg hc] at h
              have hpair := Option.some_inj.mp h
              have hfn : fn = transcriptFilename vid ts := (Prod.mk.injEq _ _ _ _ ▸ hpair).1.symm
              have hc2 : c = transcriptContent (merge_transcript_segments
                  ((e :: es).map normalizeEntry)) := (Prod.mk.injEq _ _ _ _ ▸ hpair).2.symm
              exact ⟨vid, langs, e, es, rfl, rfl, hf, hfn, hc2⟩

lemma transcriptFilename_inj (v t t' : String)
    (h : transcriptFilename v t = transcriptFilename v t') : t = t' := by
  unfold transcriptFilename at h
  have hd := congrArg String.data h
  simp only [String.data_append] at hd
  have h1 := List.append_cancel_right hd
  have h2 := List.append_cancel_left h1
  cases t with
  | mk d =>
    cases t' with
    | mk d' =>
      show String.mk d = String.mk d'
      rw [show d = d' from h2]

/-- C6 (counterexample): two `get_clean_transcript` calls on the same video
within the same clock second (the timestamp format is second-granular
`%Y%m%d_%H%M%S`) produce the same filename, so the second write replaces
the first file's content: repeated processing CAN overwrite a previously
written transcript. -/
theorem claim_c6_counterexample :
    (get_clean_transcript
        ⟨ListTranscriptsResult.ok ["en"], some [⟨0, none, some 2, "Hello."⟩],
          fun _ => none, fun _ => none⟩
        "v=abcdefghijk" "20240101_120000").written =
      some (transcriptFilename "abcdefghijk" "20240101_120000", "Hello.\n") ∧
    (get_clean_transcript
        ⟨ListTranscriptsResult.ok ["en"], some [⟨0, none, some 2, "Bye."⟩],
          fun _ => none, fun _ => none⟩
        "v=abcdefghijk" "20240101_120000").written =
      some (transcriptFilename "abcdefghijk" "20240101_120000", "Bye.\n") ∧
    ("Hello.\n" : String) ≠ "Bye.\n" ∧
    applyWrite
      (applyWrite (fun _ => none)
        (get_clean_transcript
          ⟨ListTranscriptsResult.ok ["en"], some [⟨0, none, some 2, "Hello."⟩],
            fun _ => none, fun _ => none⟩
          "v=abcdefghijk" "20240101_120000"))
      (get_clean_transcript
        ⟨ListTranscriptsResult.ok ["en"], some [⟨0, none, some 2, "Bye."⟩],
          fun _ => none, fun _ => none⟩
        "v=abcdefghijk" "20240101_120000")
      (transcriptFilename "abcdefghijk" "20240101_120000") = some "Bye.\n" :=
  ⟨by decide, by decide, by decide, by decide⟩

/-- C6 (amended): every successful write goes to
`transcripts/transcript_<video_id>_<timestamp>.txt` with one line per merged
segment; PROVIDED two runs carry different formatted timestamps, their
filenames differ and the later write leaves the earlier file unchanged.
Two runs within the same second share a filename and do overwrite. -/
theorem claim_c6_thm (b1 b2 : SourceBehavior)
    (url t1 t2 fn1 c1 fn2 c2 : String) (fs0 : String → Option String)
    (h1 : (get_clean_transcript b1 url t1).written = some (fn1, c1))
    (h2 : (get_clean_transcript b2 url t2).written = some (fn2, c2))
    (hts : t1 ≠ t2) :
    (∃ vid, get_video_id url = some vid ∧
      fn1 = transcriptFilename vid t1 ∧ fn2 = transcriptFilename vid t2) ∧
    (∃ entries : List RawEntry, c1 = transcriptContent
      (merge_transcript_segments (entries.map normalizeEntry))) ∧
    fn1 ≠ fn2 ∧
    applyWrite (applyWrite fs0 (get_clean_transcript b1 url t1))
      (get_clean_transcript b2 url t2) fn1 = some c1 := by
  obtain ⟨vid1, langs1, e1, es1, hv1, hL1, hf1, hfn1, hc1⟩ :=
    written_some_eq b1 url t1 fn1 c1 h1
  obtain ⟨vid2, langs2, e2, es2, hv2, hL2, hf2, hfn2, hc2⟩ :=
    written_some_eq b2 url t2 fn2 c2 h2
  have hvid : vid1 = vid2 := by
    rw [hv1] at hv2
    exact Option.some_inj.mp hv2
  subst hvid
  have hfn : fn1 ≠ fn2 := by
    intro hfe
    rw [hfn1, hfn2] at hfe
    exact hts (transcriptFilename_inj vid1 t1 t2 hfe)
  refine ⟨⟨vid1, hv1, hfn1, hfn2⟩, ⟨e1 :: es1, hc1⟩, hfn, ?_⟩
  show (match (get_clean_transcript b2 url t2).written with
    | none => applyWrite fs0 (get_clean_transcript b1 url t1)
    | some fc => fun p => if p = fc.1 then some fc.2
        else applyWrite fs0 (get_clean_transcript b1 url t1) p) fn1 = some c1
  rw [h2]
  show (if fn1 = fn2 then some c2
    else applyWrite fs0 (get_clean_transcript b1 url t1) fn1) = some c1
  rw [if_neg hfn]
  show (match (get_clean_transcript b1 url t1).written with
    | none => fs0
    | some fc => fun p => if p = fc.1 then some fc.2 else fs0 p) fn1 = some c1
  rw [h1]
  show (if fn1 = fn1 then some c1 else fs0 fn1) = some c1
  rw [if_pos rfl]

/-- C6 (witness): distinct-second runs on the same video target distinct
files. -/
theorem claim_c6_witness :
    transcriptFilename "abcdefghijk" "20240101_120000" ≠
      transcriptFilename "abcdefghijk" "20240101_120001" :=
  (claim_c6_thm
    ⟨ListTranscriptsResult.ok ["en"], some [⟨0, none, some 2, "Hello."⟩],
      fun _ => none, fun _ => none⟩
    ⟨ListTranscriptsResult.ok ["en"], some [⟨0, none, some 2, "Bye."⟩],
      fun _ => none, fun _ => none⟩
    "v=abcdefghijk" "20240101_120000" "20240101_120001"
    (transcriptFilename "abcdefghijk" "20240101_120000") "Hello.\n"
    (transcriptFilename "abcdefghijk" "20240101_120001") "Bye.\n"
    (fun _ => none) (by decide) (by decide) (by decide)).2.2.1

/-! ### `create_vector_store` from `yt_chat.py` -/

/-- External effects of `create_vector_store`, in call order:
`FAISS.load_local`, `split_documents`, the chunk embedding plus
`FAISS.from_documents` build, `os.makedirs`, `save_local`. -/
inductive VSAction where
  | load_local
  | split_documents
  | embed_chunks
  | from_documents
  | makedirs
  | save_local
deriving DecidableEq, Repr

/-- Result of `create_vector_store`: a loaded store, a freshly built store
over the given chunks, or a raised `ValueError` message. -/
inductive VSResult where
  | loaded
  | built (chunks : List String)
  | error (msg : String)
deriving DecidableEq, Repr

/-- `create_vector_store(documents, api_key, persist_dir)` from
`yt_chat.py`: documents are their page contents, `dirExists` is
`os.path.exists(persist_dir)`, and `split` is the external
`RecursiveCharacterTextSplitter` collaborator.  Returns the result and the
ordered list of external effects performed. -/
def create_vector_store (documents : List String) (dirExists : Bool)
    (split : List String → List String) : VSResult × List VSAction :=
  if documents.isEmpty then
    (VSResult.error "No documents provided to create vector store", [])
  else if dirExists then
    (VSResult.loaded, [VSAction.load_local])
  else
    let chunks := split documents
    if chunks.isEmpty then
      (VSResult.error "No text chunks created from documents",
        [VSAction.split_documents])
    else
      (VSResult.built chunks,
        [VSAction.split_documents, VSAction.embed_chunks, VSAction.from_documents,
          VSAction.makedirs, VSAction.save_local])

/-- C7 (counterexample): with an empty document list and the persist
directory present, `create_vector_store` raises the `ValueError` before the
existence check — it does NOT load the persisted index, so the claim's
"whenever the persist directory exists it loads" fails. -/
theorem claim_c7_counterexample :
    create_vector_store [] true (fun d => d) =
      (VSResult.error "No documents provided to create vector store", []) ∧
    VSAction.load_local ∉ (create_vector_store [] true (fun d => d)).2 :=
  ⟨by decide, by decide⟩

/-- C7 (amended): provided the document list is non-empty, an existing
persist directory means the store is loaded with no chunking, no embedding
and no write; only when the directory is absent (and splitting yields
chunks) does the function split, embed, build and persist. -/
theorem claim_c7_thm (documents : List String) (dirExists : Bool)
    (split : List String → List String) (hdocs : documents ≠ []) :
    (dirExists = true →
      create_vector_store documents dirExists split =
        (VSResult.loaded, [VSAction.load_local]) ∧
      VSAction.split_documents ∉ (create_vector_store documents dirExists split).2 ∧
      VSAction.embed_chunks ∉ (create_vector_store documents dirExists split).2 ∧
      VSAction.save_local ∉ (create_vector_store documents dirExists split).2 ∧
      VSAction.makedirs ∉ (create_vector_store documents dirExists split).2) ∧
    (dirExists = false → split documents ≠ [] →
      create_vector_store documents dirExists split =
        (VSResult.built (split documents),
          [VSAction.split_documents, VSAction.embed_chunks, VSAction.from_documents,
            VSAction.makedirs, VSAction.save_local])) := by
  have hde : documents.isEmpty = false := by
    cases documents with
    | nil => exact absurd rfl hdocs
    | cons d ds => rfl
  constructor
  · intro hdir
    subst hdir
    have heq : create_vector_store documents true split =
        (VSResult.loaded, [VSAction.load_local]) := by
      unfold create_vector_store
      rw [hde]
      rfl
    rw [heq]
    exact ⟨rfl, by decide, by decide, by decide, by decide⟩
  · intro hdir hchunks
    subst hdir
    have hce : (split documents).isEmpty = false := by
      cases hc : split documents with
      | nil => exact absurd hc hchunks
      | cons c cs => rfl
    unfold create_vector_store
    simp [hde, hce]

/-- C7 (witness): with one document and an existing persist directory, the
store is loaded and nothing is rebuilt. -/
theorem claim_c7_witness :
    create_vector_store ["doc"] true (fun d => d) =
      (VSResult.loaded, [VSAction.load_local]) :=
  ((claim_c7_thm ["doc"] true (fun d => d) (by decide)).1 rfl).1

/-! ### Session history (`store`, `get_session_history`, `setup_chatbot`) -/

/-- A turn's author. -/
inductive Role where
  | user
  | assistant
deriving DecidableEq, Repr

/-- One history turn. -/
structure Turn where
  role : Role
  content : String
deriving DecidableEq, Repr

/-- The module-level `store` dict: session id to turn history. -/
abbrev HistoryStore := String → Option (List Turn)

/-- `get_session_history(session_id)` from `yt_chat.py`: create an empty
history on first reference, then return the session's history together with
the (possibly updated) store. -/
def get_session_history (session_id : String) (store : HistoryStore) :
    List Turn × HistoryStore :=
  match store session_id with
  | some h => (h, store)
  | none => ([], fun s => if s = session_id then some [] else store s)

/-- Modelled from the spec: the per-invocation history update performed by
the `RunnableWithMessageHistory` wrapper that `setup_chatbot` builds around
`get_session_history` — that wrapper is library code outside this
repository.  Per the specification (§4.6), a successful ask appends the
`(user, question)` turn and then the `(assistant, answer)` turn to the
session's history, touching no other session. -/
def ask_success (session_id question answer : String) (store : HistoryStore) :
    HistoryStore :=
  let hs := get_session_history session_id store
  fun s =>
    if s = session_id then
      some (hs.1 ++ [⟨Role.user, question⟩, ⟨Role.assistant, answer⟩])
    else hs.2 s

/-- Fold a sequence of successful question/answer exchanges over the store. -/
def run_asks (session_id : String) (qas : List (String × String))
    (store : HistoryStore) : HistoryStore :=
  match qas with
  | [] => store
  | (q, a) :: rest => run_asks session_id rest (ask_success session_id q a store)

lemma flatten_pairs_length :
    ∀ qas : List (String × String),
      ((qas.map (fun p =>
        [(⟨Role.user, p.1⟩ : Turn), ⟨Role.assistant, p.2⟩])).flatten).length =
        2 * qas.length := by
  intro qas
  induction qas with
  | nil => rfl
  | cons qa rest ih =>
    simp only [List.map_cons, List.flatten_cons, List.length_append,
      List.length_cons, List.length_nil, List.length_map, ih]
    omega

lemma run_asks_hist (session_id : String) :
    ∀ (qas : List (String × String)) (store : HistoryStore) (h : List Turn),
      store session_id = some h →
      run_asks session_id qas store session_id =
        some (h ++ (qas.map (fun p =>
          [(⟨Role.user, p.1⟩ : Turn), ⟨Role.assistant, p.2⟩])).flatten) ∧
      (∀ s, s ≠ session_id → run_asks session_id qas store s = store s) := by
  intro qas
  induction qas with
  | nil =>
    intro store h hstore
    refine ⟨?_, fun s _ => rfl⟩
    rw [show run_asks session_id [] store = store from rfl, hstore]
    simp
  | cons qa rest ih =>
    intro store h hstore
    obtain ⟨q, a⟩ := qa
    have hget : get_session_history session_id store = (h, store) := by
      unfold get_session_history
      rw [hstore]
    have hask : ask_success session_id q a store =
        fun s => if s = session_id then
          some (h ++ [⟨Role.user, q⟩, ⟨Role.assistant, a⟩]) else store s := by
      unfold ask_success
      rw [hget]
    have hrun : run_asks session_id ((q, a) :: rest) store =
        run_asks session_id rest (ask_success session_id q a store) := rfl
    have hstore' : ask_success session_id q a store session_id =
        some (h ++ [⟨Role.user, q⟩, ⟨Role.assistant, a⟩]) := by
      rw [hask]
      simp
    obtain ⟨ih1, ih2⟩ := ih (ask_success session_id q a store)
      (h ++ [⟨Role.user, q⟩, ⟨Role.assistant, a⟩]) hstore'
    constructor
    · rw [hrun, ih1]
      simp
    · intro s hs
      rw [hrun, ih2 s hs, hask]
      simp [hs]

/-- C8: the session history is created on first reference; after N
successful ask invocations on a freshly referenced session the history is
exactly the interleaving (user, q1), (assistant, a1), ..., in call order —
2N turns, none reordered or deleted — and no other session is touched. -/
theorem claim_c8_thm (session_id : String) (qas : List (String × String))
    (store : HistoryStore) (hfresh : store session_id = none) :
    (get_session_history session_id store).2 session_id = some [] ∧
    run_asks session_id qas (get_session_history session_id store).2 session_id =
      some ((qas.map (fun p =>
        [(⟨Role.user, p.1⟩ : Turn), ⟨Role.assistant, p.2⟩])).flatten) ∧
    ((qas.map (fun p =>
      [(⟨Role.user, p.1⟩ : Turn), ⟨Role.assistant, p.2⟩])).flatten).length =
      2 * qas.length ∧
    (∀ s, s ≠ session_id →
      run_asks session_id qas (get_session_history session_id store).2 s = store s) := by
  have hget : get_session_history session_id store =
      ([], fun s => if s = session_id then some [] else store s) := by
    unfold get_session_history
    rw [hfresh]
  have hcreated : (get_session_history session_id store).2 session_id = some [] := by
    rw [hget]
    simp
  obtain ⟨h1, h2⟩ := run_asks_hist session_id qas
    (get_session_history session_id store).2 [] hcreated
  refine ⟨hcreated, by simpa using h1, flatten_pairs_length qas, ?_⟩
  · intro s hs
    rw [h2 s hs, hget]
    simp [hs]

/-- C8 (witness): one successful exchange on a fresh session leaves exactly
the user turn followed by the assistant turn. -/
theorem claim_c8_witness :
    run_asks "abc123" [("q1", "a1")]
        (get_session_history "abc123" (fun _ => none)).2 "abc123" =
      some (([("q1", "a1")].map (fun p =>
        [(⟨Role.user, p.1⟩ : Turn), ⟨Role.assistant, p.2⟩])).flatten) :=
  (claim_c8_thm "abc123" [("q1", "a1")] (fun _ => none) rfl).2.1

end YT
